import Mathlib

/-!
Verification of the spritesheet slicing pipeline: background pixel
classification, border-seeded flood fill, connected-component extraction,
proximity-based region merging, artifact filtering and the per-sprite
transparency pass. The definitions below are a shallow embedding of the
pipeline functions; the flood fills are modelled as fuelled worklist loops
whose fuel provably suffices to drain the queue.
-/

set_option maxHeartbeats 1000000
set_option maxRecDepth 100000

/-- Red, green, blue and alpha channel values of one pixel. -/
abbrev RGBA := ℕ × ℕ × ℕ × ℕ

/-- A pixel buffer: a random access image addressed by integer coordinates. -/
abbrev PixelBuffer := ℤ × ℤ → RGBA

/-- Classifier from the source: a pixel is background-like when the average
channel intensity exceeds 225 and the max-minus-min channel spread stays
strictly below the threshold (default 12). -/
def is_background_pixel (r g b : ℕ) (threshold : ℤ := 12) : Bool :=
  decide ((225 : ℚ) < ((r : ℚ) + (g : ℚ) + (b : ℚ)) / 3) &&
    decide (((max r (max g b) : ℕ) : ℤ) - ((min r (min g b) : ℕ) : ℤ) < threshold)

/-- Background classification of one buffer pixel; the alpha channel is
ignored. -/
def isBgOf (img : PixelBuffer) (p : ℤ × ℤ) : Bool :=
  is_background_pixel (img p).1 (img p).2.1 (img p).2.2.1

/-- Membership of a coordinate pair in the w times h pixel grid. -/
abbrev inGrid (w h : ℕ) (p : ℤ × ℤ) : Prop :=
  0 ≤ p.1 ∧ p.1 < (w : ℤ) ∧ 0 ≤ p.2 ∧ p.2 < (h : ℤ)

/-- The four axis-aligned neighbors of a pixel, in the push order used by
every flood fill of the source. -/
def neighbors (p : ℤ × ℤ) : List (ℤ × ℤ) :=
  [(p.1 + 1, p.2), (p.1 - 1, p.2), (p.1, p.2 + 1), (p.1, p.2 - 1)]

/-- Four-connected adjacency. -/
abbrev adjacent (p q : ℤ × ℤ) : Prop := q ∈ neighbors p

/-- A pixel lying on one of the four borders of the grid. -/
abbrev onBorder (w h : ℕ) (p : ℤ × ℤ) : Prop :=
  inGrid w h p ∧ (p.1 = 0 ∨ p.1 = (w : ℤ) - 1 ∨ p.2 = 0 ∨ p.2 = (h : ℤ) - 1)

/-- Seed list of the border-seeded flood fills: top and bottom row for every
column, then left and right column for every row, as in the source. -/
def borderSeeds (w h : ℕ) : List (ℤ × ℤ) :=
  (List.range w).flatMap (fun x : ℕ => [((x : ℤ), 0), ((x : ℤ), (h : ℤ) - 1)]) ++
    (List.range h).flatMap (fun y : ℕ => [(0, (y : ℤ)), ((w : ℤ) - 1, (y : ℤ))])

/-- The pixel grid as a finite set of coordinates. -/
def gridF (w h : ℕ) : Finset (ℤ × ℤ) :=
  Finset.Ico 0 (w : ℤ) ×ˢ Finset.Ico 0 (h : ℤ)

/-- Fuel that provably drains the background flood fill worklist. -/
def bgFuel (w h : ℕ) : ℕ := (borderSeeds w h).length + 4 * (w * h)

/-- Worklist loop of the background flood fill: pop a pixel, skip it when it
is out of bounds, already visited or not background-like, otherwise mark it
and push its four neighbors. Returns the remaining queue and the visited
set. -/
def bgRun (w h : ℕ) (isBg : ℤ × ℤ → Bool) :
    ℕ → List (ℤ × ℤ) → Finset (ℤ × ℤ) → List (ℤ × ℤ) × Finset (ℤ × ℤ)
  | 0, queue, visited => (queue, visited)
  | _ + 1, [], visited => ([], visited)
  | fuel + 1, (x, y) :: queue, visited =>
    if x < 0 ∨ (w : ℤ) ≤ x ∨ y < 0 ∨ (h : ℤ) ≤ y then
      bgRun w h isBg fuel queue visited
    else if (x, y) ∈ visited then
      bgRun w h isBg fuel queue visited
    else if isBg (x, y) = false then
      bgRun w h isBg fuel queue visited
    else
      bgRun w h isBg fuel (queue ++ neighbors (x, y)) (insert (x, y) visited)

/-- Sheet-level background mask: flood fill from all border pixels. -/
def flood_fill_background (w h : ℕ) (img : PixelBuffer) : Finset (ℤ × ℤ) :=
  (bgRun w h (isBgOf img) (bgFuel w h) (borderSeeds w h) ∅).2

/-- Reachability from the border through background-like pixels along
4-connected steps; endpoints included. -/
inductive Reach (w h : ℕ) (isBg : ℤ × ℤ → Bool) : ℤ × ℤ → Prop
  | border (p : ℤ × ℤ) (hb : onBorder w h p) (hbg : isBg p = true) :
      Reach w h isBg p
  | step (p q : ℤ × ℤ) (hp : Reach w h isBg p) (ha : adjacent p q)
      (hq : inGrid w h q) (hbg : isBg q = true) : Reach w h isBg q

/-- Region record of the source: bounding box with exclusive upper bounds
plus the foreground pixel count. -/
structure Region where
  x1 : ℤ
  y1 : ℤ
  x2 : ℤ
  y2 : ℤ
  count : ℕ
deriving DecidableEq

/-- State of the component-collecting breadth-first search: the visited set
shared across components together with the running bounding box and pixel
counter of the current component. -/
structure RState where
  vis : Finset (ℤ × ℤ)
  minx : ℤ
  miny : ℤ
  maxx : ℤ
  maxy : ℤ
  count : ℕ

/-- Fuel that provably drains one component worklist. -/
def regFuel (w h : ℕ) : ℕ := 4 * (w * h) + 1

/-- Worklist loop collecting one connected foreground component: skip
pixels that are out of bounds, in the background mask or already collected,
otherwise mark them, extend the running bounding box and bump the pixel
counter. -/
def regBFS (w h : ℕ) (mask : ℤ × ℤ → Bool) :
    ℕ → List (ℤ × ℤ) → RState → RState
  | 0, _, st => st
  | _ + 1, [], st => st
  | fuel + 1, (x, y) :: queue, st =>
    if x < 0 ∨ (w : ℤ) ≤ x ∨ y < 0 ∨ (h : ℤ) ≤ y then
      regBFS w h mask fuel queue st
    else if mask (x, y) = true ∨ (x, y) ∈ st.vis then
      regBFS w h mask fuel queue st
    else
      regBFS w h mask fuel (queue ++ neighbors (x, y))
        ⟨insert (x, y) st.vis, min st.minx x, min st.miny y,
          max st.maxx x, max st.maxy y, st.count + 1⟩

/-- Row-major scan order of the grid, outer loop over rows. -/
def scanOrder (w h : ℕ) : List (ℤ × ℤ) :=
  (List.range h).flatMap
    (fun y : ℕ => (List.range w).map (fun x : ℕ => ((x : ℤ), (y : ℤ))))

/-- Instrumented sweep: collects every connected component, without the
minimum-size filter, returning for each component its pixel set together
with the region record built from the running bounding box and counter. -/
def sweepA (w h : ℕ) (mask : ℤ × ℤ → Bool) :
    List (ℤ × ℤ) → Finset (ℤ × ℤ) → List (Finset (ℤ × ℤ) × Region)
  | [], _ => []
  | (x, y) :: rest, rv =>
    if mask (x, y) = true ∨ (x, y) ∈ rv then sweepA w h mask rest rv
    else
      let st := regBFS w h mask (regFuel w h) [(x, y)] ⟨rv, x, y, x, y, 0⟩
      (st.vis \ rv, ⟨st.minx, st.miny, st.maxx + 1, st.maxy + 1, st.count⟩) ::
        sweepA w h mask rest st.vis

/-- Sweep of the source with the inline minimum-size filter: a collected
component is kept exactly when its bounding box width and height both reach
min_size. -/
def sweepR (w h : ℕ) (mask : ℤ × ℤ → Bool) (min_size : ℤ) :
    List (ℤ × ℤ) → Finset (ℤ × ℤ) → List Region
  | [], _ => []
  | (x, y) :: rest, rv =>
    if mask (x, y) = true ∨ (x, y) ∈ rv then sweepR w h mask min_size rest rv
    else
      let st := regBFS w h mask (regFuel w h) [(x, y)] ⟨rv, x, y, x, y, 0⟩
      if min_size ≤ st.maxx - st.minx + 1 ∧ min_size ≤ st.maxy - st.miny + 1 then
        ⟨st.minx, st.miny, st.maxx + 1, st.maxy + 1, st.count⟩ ::
          sweepR w h mask min_size rest st.vis
      else
        sweepR w h mask min_size rest st.vis

/-- Connected-component extraction of the source: row-major scan, one
breadth-first collection per unvisited foreground pixel, keeping only
components whose bounding box reaches the minimum size. -/
def find_sprite_regions (w h : ℕ) (mask : ℤ × ℤ → Bool) (min_size : ℤ := 30) :
    List Region :=
  sweepR w h mask min_size (scanOrder w h) ∅

/-- Every collected component, before size filtering, with its pixel set. -/
def allComponents (w h : ℕ) (mask : ℤ × ℤ → Bool) :
    List (Finset (ℤ × ℤ) × Region) :=
  sweepA w h mask (scanOrder w h) ∅

/-- Expanded-bounds intersection test of the merger: the box of the first
region grown by the gap on all sides meets the box of the second region. -/
def close (gap : ℤ) (a b : Region) : Bool :=
  decide (a.x1 - gap ≤ b.x2) && decide (b.x1 ≤ a.x2 + gap) &&
    decide (a.y1 - gap ≤ b.y2) && decide (b.y1 ≤ a.y2 + gap)

/-- Absorption of one region into another: union of box extents, sum of
pixel counts. -/
def unionR (a b : Region) : Region :=
  ⟨min a.x1 b.x1, min a.y1 b.y1, max a.x2 b.x2, max a.y2 b.y2,
    a.count + b.count⟩

/-- Inner loop of one merge pass: scan the later regions once, absorbing
every one that is close to the running region, and report whether any
absorption happened. -/
def absorb (gap : ℤ) : Region → List Region → Region × List Region × Bool
  | r, [] => (r, [], false)
  | r, s :: rest =>
    if close gap r s = true then
      let res := absorb gap (unionR r s) rest
      (res.1, res.2.1, true)
    else
      let res := absorb gap r rest
      (res.1, s :: res.2.1, res.2.2)

/-- One full merge pass: every region not yet consumed absorbs all later
close regions in turn; the flag records whether the pass merged anything.
The fuel argument only bounds the recursion and is never exhausted when it
starts at the length of the list. -/
def mergePassAux (gap : ℤ) : ℕ → List Region → List Region × Bool
  | _, [] => ([], false)
  | 0, rs => (rs, false)
  | fuel + 1, r :: rest =>
    let a := absorb gap r rest
    let b := mergePassAux gap fuel a.2.1
    (a.1 :: b.1, a.2.2 || b.2)

/-- One full merge pass over a region list. -/
def mergePass (gap : ℤ) (rs : List Region) : List Region × Bool :=
  mergePassAux gap rs.length rs

/-- Iterate merge passes until a pass reports no merge. The fuel argument
only bounds the iteration count; one more pass than the list length always
suffices because every merging pass shortens the list. -/
def mergeRun (gap : ℤ) : ℕ → List Region → List Region
  | 0, rs => rs
  | fuel + 1, rs =>
    let res := mergePass gap rs
    if res.2 = true then mergeRun gap fuel res.1 else res.1

/-- Region merging of the source: repeat full passes until a pass produces
no merge; an empty input is returned unchanged. -/
def merge_close_regions (regions : List Region) (gap : ℤ := 5) : List Region :=
  if regions = [] then regions
  else mergeRun gap (regions.length + 1) regions

/-- Post-merge artifact filter of the orchestration step: keep only regions
with more than 500 foreground pixels. -/
def filterArtifacts (regions : List Region) : List Region :=
  regions.filter (fun r => decide (500 < r.count))

/-- Sort key order of the orchestration step: coarse row bucket of 50
pixels by floor division, then the left edge. -/
abbrev sortLE (a b : Region) : Prop :=
  a.y1.ediv 50 < b.y1.ediv 50 ∨ (a.y1.ediv 50 = b.y1.ediv 50 ∧ a.x1 ≤ b.x1)

/-- Stable sort of the surviving regions into reading order. -/
def sortRegions (regions : List Region) : List Region :=
  regions.insertionSort sortLE

/-- The background mask of a sheet as a boolean lookup, as handed from the
flood fill to the region extractor. -/
def bgMaskFn (w h : ℕ) (img : PixelBuffer) (p : ℤ × ℤ) : Bool :=
  decide (p ∈ flood_fill_background w h img)

/-- Regions surviving the whole extract, merge, filter and sort pipeline of
the slicing routine. -/
def pipelineRegions (w h : ℕ) (img : PixelBuffer) : List Region :=
  sortRegions (filterArtifacts
    (merge_close_regions (find_sprite_regions w h (bgMaskFn w h img) 30) 3))

/-- Axis-aligned crop box. -/
structure Box where
  x1 : ℤ
  y1 : ℤ
  x2 : ℤ
  y2 : ℤ
deriving DecidableEq

/-- Padded and clamped crop box of a region: grow by the padding on all
sides, clamp to the sheet bounds. -/
def cropBox (w h : ℕ) (pad : ℤ) (r : Region) : Box :=
  ⟨max 0 (r.x1 - pad), max 0 (r.y1 - pad), min (w : ℤ) (r.x2 + pad),
    min (h : ℤ) (r.y2 + pad)⟩

/-- Crop of a buffer to a box: pixel p of the crop reads the source at the
box origin plus p. -/
def cropBuffer (img : PixelBuffer) (b : Box) : PixelBuffer :=
  fun p => img (b.x1 + p.1, b.y1 + p.2)

/-- Keep the color channels, zero the alpha channel. -/
def setTransparent (c : RGBA) : RGBA := (c.1, c.2.1, c.2.2.1, 0)

/-- Pointwise update of a buffer. -/
def updateBuf (buf : PixelBuffer) (p : ℤ × ℤ) (c : RGBA) : PixelBuffer :=
  fun q => if q = p then c else buf q

/-- Worklist loop of the transparency pass: identical traversal to the
background fill, but each marked pixel additionally has its alpha channel
zeroed in the buffer, reading the color channels back unchanged. -/
def mbRun (w h : ℕ) :
    ℕ → List (ℤ × ℤ) → Finset (ℤ × ℤ) → PixelBuffer →
      Finset (ℤ × ℤ) × PixelBuffer
  | 0, _, visited, buf => (visited, buf)
  | _ + 1, [], visited, buf => (visited, buf)
  | fuel + 1, (x, y) :: queue, visited, buf =>
    if x < 0 ∨ (w : ℤ) ≤ x ∨ y < 0 ∨ (h : ℤ) ≤ y then
      mbRun w h fuel queue visited buf
    else if (x, y) ∈ visited then
      mbRun w h fuel queue visited buf
    else if isBgOf buf (x, y) = false then
      mbRun w h fuel queue visited buf
    else
      mbRun w h fuel (queue ++ neighbors (x, y)) (insert (x, y) visited)
        (updateBuf buf (x, y) (setTransparent (buf (x, y))))

/-- Per-sprite transparency pass of the source: border-seeded flood fill on
the cropped sprite, zeroing the alpha channel of every marked pixel. -/
def make_background_transparent (w h : ℕ) (img : PixelBuffer) : PixelBuffer :=
  (mbRun w h (bgFuel w h) (borderSeeds w h) ∅ img).2

/-- A buffer with the alpha channel zeroed exactly on a given pixel set. -/
def patchAlpha (img : PixelBuffer) (v : Finset (ℤ × ℤ)) : PixelBuffer :=
  fun p => if p ∈ v then setTransparent (img p) else img p

/-- Crop one region with 2 pixels of padding and run the transparency pass
on the crop, as done for every region of the cutting loop. -/
def processRegion (w h : ℕ) (img : PixelBuffer) (r : Region) : Box × PixelBuffer :=
  let b := cropBox w h 2 r
  (b, make_background_transparent (b.x2 - b.x1).toNat (b.y2 - b.y1).toNat
    (cropBuffer img b))

/-- Cutting loop of the slicing routine: every region of the list is
cropped, made transparent and emitted towards the image writer, with no
guard of any kind. -/
def spriteCut (w h : ℕ) (img : PixelBuffer) (regions : List Region) :
    List (Box × PixelBuffer) :=
  regions.map (processRegion w h img)

/-- Whole slicing pipeline of one sheet: background fill, extraction,
merging, filtering, sorting, then cropping and transparency. -/
def slice_spritesheet (w h : ℕ) (img : PixelBuffer) : List (Box × PixelBuffer) :=
  spriteCut w h img (pipelineRegions w h img)

/-- Well-formedness of a region box relative to the sheet bounds. -/
def WellFormed (w h : ℕ) (r : Region) : Prop :=
  0 ≤ r.x1 ∧ r.x1 < r.x2 ∧ r.x2 ≤ (w : ℤ) ∧
    0 ≤ r.y1 ∧ r.y1 < r.y2 ∧ r.y2 ≤ (h : ℤ)

/-- The rational average test of the classifier is equivalent to the
integer comparison of the channel sum against 675. -/
theorem is_background_pixel_iff (r g b : ℕ) (t : ℤ) :
    is_background_pixel r g b t =
      (decide (675 < r + g + b) &&
        decide (((max r (max g b) : ℕ) : ℤ) - ((min r (min g b) : ℕ) : ℤ) < t)) := by
  unfold is_background_pixel
  congr 1
  rw [decide_eq_decide, lt_div_iff₀ (by norm_num : (0:ℚ) < 3)]
  constructor
  · intro hlt
    have h : ((675 : ℕ) : ℚ) < ((r + g + b : ℕ) : ℚ) := by push_cast; linarith
    exact_mod_cast h
  · intro hlt
    have h : ((675 : ℕ) : ℚ) < ((r + g + b : ℕ) : ℚ) := by exact_mod_cast hlt
    push_cast at h
    linarith

/-- The visited set of the background fill only grows. -/
theorem bgRun_mono (w h : ℕ) (isBg : ℤ × ℤ → Bool) :
    ∀ (fuel : ℕ) (queue : List (ℤ × ℤ)) (visited : Finset (ℤ × ℤ)),
      visited ⊆ (bgRun w h isBg fuel queue visited).2 := by
  intro fuel
  induction fuel with
  | zero => intro queue visited; simp [bgRun]
  | succ n ih =>
    intro queue visited
    cases queue with
    | nil => simp [bgRun]
    | cons p rest =>
      obtain ⟨x, y⟩ := p
      simp only [bgRun]
      split
      · exact ih rest visited
      · split
        · exact ih rest visited
        · split
          · exact ih rest visited
          · exact (Finset.subset_insert _ _).trans (ih _ _)

/-- Every pixel the background fill marks is either already visited or an
in-bounds background-like pixel. -/
theorem bgRun_marks (w h : ℕ) (isBg : ℤ × ℤ → Bool) :
    ∀ (fuel : ℕ) (queue : List (ℤ × ℤ)) (visited : Finset (ℤ × ℤ))
      (p : ℤ × ℤ), p ∈ (bgRun w h isBg fuel queue visited).2 →
      p ∈ visited ∨ (inGrid w h p ∧ isBg p = true) := by
  intro fuel
  induction fuel with
  | zero => intro queue visited p hp; simp [bgRun] at hp; exact Or.inl hp
  | succ n ih =>
    intro queue visited p hp
    cases queue with
    | nil => simp [bgRun] at hp; exact Or.inl hp
    | cons q rest =>
      obtain ⟨x, y⟩ := q
      simp only [bgRun] at hp
      split at hp
      · exact ih rest visited p hp
      · split at hp
        · exact ih rest visited p hp
        · split at hp
          · exact ih rest visited p hp
          · rcases ih _ _ p hp with hv | hv
            · rcases Finset.mem_insert.mp hv with rfl | hv
              · rename_i hb _ hbg
                refine Or.inr ⟨?_, by simpa using hbg⟩
                push_neg at hb
                exact ⟨hb.1, hb.2.1, hb.2.2.1, hb.2.2.2⟩
              · exact Or.inl hv
            · exact Or.inr hv

/-- Soundness of the background fill: starting from a queue of reachable
candidates and a visited set of reachable pixels, every marked pixel is
reachable from the border. -/
theorem bgRun_sound (w h : ℕ) (isBg : ℤ × ℤ → Bool) :
    ∀ (fuel : ℕ) (queue : List (ℤ × ℤ)) (visited : Finset (ℤ × ℤ)),
      (∀ q ∈ queue, inGrid w h q → isBg q = true → Reach w h isBg q) →
      (∀ p ∈ visited, Reach w h isBg p) →
      ∀ p ∈ (bgRun w h isBg fuel queue visited).2, Reach w h isBg p := by
  intro fuel
  induction fuel with
  | zero => intro queue visited _ hv p hp; simp [bgRun] at hp; exact hv p hp
  | succ n ih =>
    intro queue visited hq hv p hp
    cases queue with
    | nil => simp [bgRun] at hp; exact hv p hp
    | cons q0 rest =>
      obtain ⟨x, y⟩ := q0
      simp only [bgRun] at hp
      split at hp
      · exact ih rest visited (fun q hq1 => hq q (List.mem_cons_of_mem _ hq1)) hv p hp
      · split at hp
        · exact ih rest visited (fun q hq1 => hq q (List.mem_cons_of_mem _ hq1)) hv p hp
        · split at hp
          · exact ih rest visited (fun q hq1 => hq q (List.mem_cons_of_mem _ hq1)) hv p hp
          · rename_i hb _ hbg
            push_neg at hb
            have hxyg : inGrid w h (x, y) := ⟨hb.1, hb.2.1, hb.2.2.1, hb.2.2.2⟩
            have hxybg : isBg (x, y) = true := by simpa using hbg
            have hreach : Reach w h isBg (x, y) :=
              hq (x, y) (List.mem_cons_self _ _) hxyg hxybg
            refine ih _ _ ?_ ?_ p hp
            · intro q hq1 hg hbgq
              rcases List.mem_append.mp hq1 with hq2 | hq2
              · exact hq q (List.mem_cons_of_mem _ hq2) hg hbgq
              · exact Reach.step (x, y) q hreach hq2 hg hbgq
            · intro q hq1
              rcases Finset.mem_insert.mp hq1 with rfl | hq2
              · exact hreach
              · exact hv q hq2

/-- With fuel at least the queue length plus four times the number of
unvisited grid cells, the background fill drains its queue completely. -/
theorem bgRun_drain (w h : ℕ) (isBg : ℤ × ℤ → Bool) :
    ∀ (fuel : ℕ) (queue : List (ℤ × ℤ)) (visited : Finset (ℤ × ℤ)),
      queue.length + 4 * ((gridF w h) \ visited).card ≤ fuel →
      (bgRun w h isBg fuel queue visited).1 = [] := by
  intro fuel
  induction fuel with
  | zero =>
    intro queue visited hle
    have : queue.length = 0 := by omega
    rw [List.length_eq_zero] at this
    subst this
    simp [bgRun]
  | succ n ih =>
    intro queue visited hle
    cases queue with
    | nil => simp [bgRun]
    | cons q0 rest =>
      obtain ⟨x, y⟩ := q0
      simp only [List.length_cons] at hle
      simp only [bgRun]
      split
      · exact ih rest visited (by omega)
      · split
        · exact ih rest visited (by omega)
        · split
          · exact ih rest visited (by omega)
          · rename_i hb hnv _
            push_neg at hb
            have hmem : (x, y) ∈ (gridF w h) \ visited := by
              refine Finset.mem_sdiff.mpr ⟨?_, hnv⟩
              simp only [gridF, Finset.mem_product, Finset.mem_Ico]
              exact ⟨⟨hb.1, hb.2.1⟩, ⟨hb.2.2.1, hb.2.2.2⟩⟩
            have hsd : (gridF w h) \ insert (x, y) visited =
                ((gridF w h) \ visited).erase (x, y) := by
              ext q
              simp only [Finset.mem_sdiff, Finset.mem_insert, Finset.mem_erase]
              tauto
            have hcard : ((gridF w h) \ insert (x, y) visited).card =
                ((gridF w h) \ visited).card - 1 := by
              rw [hsd, Finset.card_erase_of_mem hmem]
            have hpos : 1 ≤ ((gridF w h) \ visited).card :=
              Finset.card_pos.mpr ⟨(x, y), hmem⟩
            refine ih _ _ ?_
            rw [hcard]
            simp only [List.length_append, neighbors, List.length_cons,
              List.length_nil]
            omega

/-- When the background fill drains its queue, the final visited set
contains every background-like border pixel and is closed under passing to
in-bounds background-like neighbors. -/
theorem bgRun_closed (w h : ℕ) (isBg : ℤ × ℤ → Bool) :
    ∀ (fuel : ℕ) (queue : List (ℤ × ℤ)) (visited : Finset (ℤ × ℤ)),
      (bgRun w h isBg fuel queue visited).1 = [] →
      (∀ p, onBorder w h p → isBg p = true → p ∈ visited ∨ p ∈ queue) →
      (∀ p, p ∈ visited → ∀ q, q ∈ neighbors p → inGrid w h q → isBg q = true →
        q ∈ visited ∨ q ∈ queue) →
      (∀ p, onBorder w h p → isBg p = true →
        p ∈ (bgRun w h isBg fuel queue visited).2) ∧
      (∀ p, p ∈ (bgRun w h isBg fuel queue visited).2 →
        ∀ q, q ∈ neighbors p → inGrid w h q → isBg q = true →
          q ∈ (bgRun w h isBg fuel queue visited).2) := by
  intro fuel
  induction fuel with
  | zero =>
    intro queue visited hdrain hborder hclosed
    simp only [bgRun] at hdrain ⊢
    subst hdrain
    constructor
    · intro p hb hbg
      rcases hborder p hb hbg with hv | hv
      · exact hv
      · simp at hv
    · intro p hp q hq hg hbg
      rcases hclosed p hp q hq hg hbg with hv | hv
      · exact hv
      · simp at hv
  | succ n ih =>
    intro queue visited hdrain hborder hclosed
    cases queue with
    | nil =>
      simp only [bgRun] at hdrain ⊢
      constructor
      · intro p hb hbg
        rcases hborder p hb hbg with hv | hv
        · exact hv
        · simp at hv
      · intro p hp q hq hg hbg
        rcases hclosed p hp q hq hg hbg with hv | hv
        · exact hv
        · simp at hv
    | cons q0 rest =>
      obtain ⟨x, y⟩ := q0
      simp only [bgRun] at hdrain ⊢
      split at hdrain
      · rename_i hb
        rw [if_pos hb]
        refine ih rest visited hdrain ?_ ?_
        · intro p hpb hpbg
          rcases hborder p hpb hpbg with hv | hv
          · exact Or.inl hv
          · rcases List.mem_cons.mp hv with rfl | hv
            · exfalso
              obtain ⟨⟨h1, h2, h3, h4⟩, _⟩ := hpb
              simp only at h1 h2 h3 h4
              rcases hb with hb | hb | hb | hb <;> omega
            · exact Or.inr hv
        · intro p hp q hq hg hbg
          rcases hclosed p hp q hq hg hbg with hv | hv
          · exact Or.inl hv
          · rcases List.mem_cons.mp hv with rfl | hv
            · exfalso
              obtain ⟨h1, h2, h3, h4⟩ := hg
              rcases hb with hb | hb | hb | hb <;> omega
            · exact Or.inr hv
      · rename_i hb
        rw [if_neg hb]
        split at hdrain
        · rename_i hvmem
          rw [if_pos hvmem]
          refine ih rest visited hdrain ?_ ?_
          · intro p hpb hpbg
            rcases hborder p hpb hpbg with hv | hv
            · exact Or.inl hv
            · rcases List.mem_cons.mp hv with rfl | hv
              · exact Or.inl hvmem
              · exact Or.inr hv
          · intro p hp q hq hg hbg
            rcases hclosed p hp q hq hg hbg with hv | hv
            · exact Or.inl hv
            · rcases List.mem_cons.mp hv with rfl | hv
              · exact Or.inl hvmem
              · exact Or.inr hv
        · rename_i hvmem
          rw [if_neg hvmem]
          split at hdrain
          · rename_i hbgf
            rw [if_pos hbgf]
            refine ih rest visited hdrain ?_ ?_
            · intro p hpb hpbg
              rcases hborder p hpb hpbg with hv | hv
              · exact Or.inl hv
              · rcases List.mem_cons.mp hv with rfl | hv
                · exfalso; rw [hpbg] at hbgf; simp at hbgf
                · exact Or.inr hv
            · intro p hp q hq hg hbg
              rcases hclosed p hp q hq hg hbg with hv | hv
              · exact Or.inl hv
              · rcases List.mem_cons.mp hv with rfl | hv
                · exfalso; rw [hbg] at hbgf; simp at hbgf
                · exact Or.inr hv
          · rename_i hbgf
            rw [if_neg hbgf]
            refine ih _ _ hdrain ?_ ?_
            · intro p hpb hpbg
              rcases hborder p hpb hpbg with hv | hv
              · exact Or.inl (Finset.mem_insert_of_mem hv)
              · rcases List.mem_cons.mp hv with rfl | hv
                · exact Or.inl (Finset.mem_insert_self _ _)
                · exact Or.inr (List.mem_append_left _ hv)
            · intro p hp q hq hg hbg
              rcases Finset.mem_insert.mp hp with rfl | hp
              · exact Or.inr (List.mem_append_right _ hq)
              · rcases hclosed p hp q hq hg hbg with hv | hv
                · exact Or.inl (Finset.mem_insert_of_mem hv)
                · rcases List.mem_cons.mp hv with rfl | hv
                  · exact Or.inl (Finset.mem_insert_self _ _)
                  · exact Or.inr (List.mem_append_left _ hv)

/-- Reachable pixels are in bounds and background-like. -/
theorem Reach_isBg (w h : ℕ) (isBg : ℤ × ℤ → Bool) (p : ℤ × ℤ)
    (hr : Reach w h isBg p) : inGrid w h p ∧ isBg p = true := by
  induction hr with
  | border p hb hbg => exact ⟨hb.1, hbg⟩
  | step p q _ _ hq hbg _ => exact ⟨hq, hbg⟩

/-- Every border pixel appears in the seed list. -/
theorem mem_borderSeeds (w h : ℕ) (p : ℤ × ℤ) (hb : onBorder w h p) :
    p ∈ borderSeeds w h := by
  obtain ⟨⟨h1, h2, h3, h4⟩, hedge⟩ := hb
  obtain ⟨x, y⟩ := p
  simp only at h1 h2 h3 h4 hedge
  rcases hedge with he | he | he | he
  · refine List.mem_append_right _ ?_
    simp only [List.mem_flatMap, List.mem_range]
    refine ⟨y.toNat, by omega, ?_⟩
    simp [Int.toNat_of_nonneg h3, he]
  · refine List.mem_append_right _ ?_
    simp only [List.mem_flatMap, List.mem_range]
    refine ⟨y.toNat, by omega, ?_⟩
    simp [Int.toNat_of_nonneg h3, he]
  · refine List.mem_append_left _ ?_
    simp only [List.mem_flatMap, List.mem_range]
    refine ⟨x.toNat, by omega, ?_⟩
    simp [Int.toNat_of_nonneg h1, he]
  · refine List.mem_append_left _ ?_
    simp only [List.mem_flatMap, List.mem_range]
    refine ⟨x.toNat, by omega, ?_⟩
    simp [Int.toNat_of_nonneg h1, he]

/-- Every in-bounds seed is a border pixel. -/
theorem borderSeeds_onBorder (w h : ℕ) (p : ℤ × ℤ)
    (hp : p ∈ borderSeeds w h) (hg : inGrid w h p) : onBorder w h p := by
  refine ⟨hg, ?_⟩
  rcases List.mem_append.mp hp with hm | hm
  · simp only [List.mem_flatMap, List.mem_range] at hm
    obtain ⟨x, _, hx⟩ := hm
    rcases List.mem_cons.mp hx with rfl | hx
    · simp
    · rcases List.mem_cons.mp hx with rfl | hx
      · simp
      · simp at hx
  · simp only [List.mem_flatMap, List.mem_range] at hm
    obtain ⟨y, _, hy⟩ := hm
    rcases List.mem_cons.mp hy with rfl | hy
    · simp
    · rcases List.mem_cons.mp hy with rfl | hy
      · simp
      · simp at hy

/-- The grid has w times h cells. -/
theorem gridF_card (w h : ℕ) : (gridF w h).card = w * h := by
  rw [gridF, Finset.card_product]
  simp [Int.card_Ico]

/-- Characterization of the background fill result on an arbitrary
classifier: a pixel is marked exactly when it is reachable from the border
through background-like pixels. -/
theorem bgMask_iff (w h : ℕ) (isBg : ℤ × ℤ → Bool) (p : ℤ × ℤ) :
    p ∈ (bgRun w h isBg (bgFuel w h) (borderSeeds w h) ∅).2 ↔
      Reach w h isBg p := by
  constructor
  · intro hp
    refine bgRun_sound w h isBg (bgFuel w h) (borderSeeds w h) ∅ ?_ ?_ p hp
    · intro q hq hg hbg
      exact Reach.border q (borderSeeds_onBorder w h q hq hg) hbg
    · intro q hq
      simp at hq
  · intro hr
    have hdrain : (bgRun w h isBg (bgFuel w h) (borderSeeds w h) ∅).1 = [] := by
      refine bgRun_drain w h isBg _ _ _ ?_
      rw [Finset.sdiff_empty, gridF_card, bgFuel]
    have hcl := bgRun_closed w h isBg (bgFuel w h) (borderSeeds w h) ∅ hdrain
      (fun q hb _ => Or.inr (mem_borderSeeds w h q hb))
      (fun q hq => by simp at hq)
    induction hr with
    | border q hb hbg => exact hcl.1 q hb hbg
    | step q r hqr ha hg hbg ih => exact hcl.2 q ih r ha hg hbg

/-- The visited set of the component worklist evolves exactly as the
background fill run on the negated mask. -/
theorem regBFS_vis (w h : ℕ) (mask : ℤ × ℤ → Bool) :
    ∀ (fuel : ℕ) (queue : List (ℤ × ℤ)) (st : RState),
      (regBFS w h mask fuel queue st).vis =
        (bgRun w h (fun p => !mask p) fuel queue st.vis).2 := by
  intro fuel
  induction fuel with
  | zero => intro queue st; simp [regBFS, bgRun]
  | succ n ih =>
    intro queue st
    cases queue with
    | nil => simp [regBFS, bgRun]
    | cons q0 rest =>
      obtain ⟨x, y⟩ := q0
      simp only [regBFS, bgRun]
      by_cases hb : x < 0 ∨ (w : ℤ) ≤ x ∨ y < 0 ∨ (h : ℤ) ≤ y
      · rw [if_pos hb, if_pos hb, ih]
      · rw [if_neg hb, if_neg hb]
        by_cases hv : (x, y) ∈ st.vis
        · rw [if_pos (Or.inr hv), if_pos hv, ih]
        · rw [if_neg hv]
          by_cases hm : mask (x, y) = true
          · rw [if_pos (Or.inl hm), if_pos (by simp [hm]), ih]
          · rw [if_neg (by tauto), if_neg (by simp [hm])]
            exact ih _ _

/-- The component visited set only grows. -/
theorem regBFS_mono (w h : ℕ) (mask : ℤ × ℤ → Bool) (fuel : ℕ)
    (queue : List (ℤ × ℤ)) (st : RState) :
    st.vis ⊆ (regBFS w h mask fuel queue st).vis := by
  rw [regBFS_vis]
  exact bgRun_mono w h _ fuel queue st.vis

/-- Every pixel the component worklist marks is either already visited or
an in-bounds unmasked pixel. -/
theorem regBFS_marks (w h : ℕ) (mask : ℤ × ℤ → Bool) (fuel : ℕ)
    (queue : List (ℤ × ℤ)) (st : RState) (p : ℤ × ℤ)
    (hp : p ∈ (regBFS w h mask fuel queue st).vis) :
    p ∈ st.vis ∨ (inGrid w h p ∧ mask p = false) := by
  rw [regBFS_vis] at hp
  rcases bgRun_marks w h _ fuel queue st.vis p hp with hv | hv
  · exact Or.inl hv
  · exact Or.inr ⟨hv.1, by simpa using hv.2⟩

/-- An in-bounds unmasked unvisited head pixel of the queue always ends up
marked. -/
theorem regBFS_seed (w h : ℕ) (mask : ℤ × ℤ → Bool) (fuel : ℕ)
    (queue : List (ℤ × ℤ)) (st : RState) (x y : ℤ)
    (hg : inGrid w h (x, y)) (hm : mask (x, y) = false) (hv : (x, y) ∉ st.vis) :
    (x, y) ∈ (regBFS w h mask (fuel + 1) ((x, y) :: queue) st).vis := by
  obtain ⟨h1, h2, h3, h4⟩ := hg
  simp only [regBFS]
  rw [if_neg (by push_neg; exact ⟨h1, h2, h3, h4⟩), if_neg (by simp [hm, hv])]
  exact regBFS_mono w h mask fuel _ _ (Finset.mem_insert_self _ _)

/-- The running bounding box of the component worklist stays within the
grid bounds and remains non-degenerate. -/
theorem regBFS_box (w h : ℕ) (mask : ℤ × ℤ → Bool) :
    ∀ (fuel : ℕ) (queue : List (ℤ × ℤ)) (st : RState),
      0 ≤ st.minx → st.minx ≤ st.maxx → st.maxx < (w : ℤ) →
      0 ≤ st.miny → st.miny ≤ st.maxy → st.maxy < (h : ℤ) →
      0 ≤ (regBFS w h mask fuel queue st).minx ∧
        (regBFS w h mask fuel queue st).minx ≤ (regBFS w h mask fuel queue st).maxx ∧
        (regBFS w h mask fuel queue st).maxx < (w : ℤ) ∧
        0 ≤ (regBFS w h mask fuel queue st).miny ∧
        (regBFS w h mask fuel queue st).miny ≤ (regBFS w h mask fuel queue st).maxy ∧
        (regBFS w h mask fuel queue st).maxy < (h : ℤ) := by
  intro fuel
  induction fuel with
  | zero =>
    intro queue st a1 a2 a3 a4 a5 a6
    simp only [regBFS]
    exact ⟨a1, a2, a3, a4, a5, a6⟩
  | succ n ih =>
    intro queue st a1 a2 a3 a4 a5 a6
    cases queue with
    | nil =>
      simp only [regBFS]
      exact ⟨a1, a2, a3, a4, a5, a6⟩
    | cons q0 rest =>
      obtain ⟨x, y⟩ := q0
      simp only [regBFS]
      split
      · exact ih rest st a1 a2 a3 a4 a5 a6
      · split
        · exact ih rest st a1 a2 a3 a4 a5 a6
        · rename_i hb _
          push_neg at hb
          refine ih _ _ ?_ ?_ ?_ ?_ ?_ ?_ <;> simp only <;> omega

/-- Pixels of every collected component avoid the incoming visited set, lie
in the grid and are not masked as background. -/
theorem sweepA_pixels (w h : ℕ) (mask : ℤ × ℤ → Bool) :
    ∀ (scan : List (ℤ × ℤ)) (rv : Finset (ℤ × ℤ))
      (c : Finset (ℤ × ℤ) × Region), c ∈ sweepA w h mask scan rv →
      ∀ p ∈ c.1, p ∉ rv ∧ inGrid w h p ∧ mask p = false := by
  intro scan
  induction scan with
  | nil => intro rv c hc; simp [sweepA] at hc
  | cons a rest ih =>
    obtain ⟨x, y⟩ := a
    intro rv c hc p hp
    simp only [sweepA] at hc
    split at hc
    · exact ih rv c hc p hp
    · rcases List.mem_cons.mp hc with rfl | hc
      · simp only at hp
        have hsd := Finset.mem_sdiff.mp hp
        rcases regBFS_marks w h mask _ _ _ p hsd.1 with hv | hv
        · exact absurd hv hsd.2
        · exact ⟨hsd.2, hv⟩
      · have hres := ih _ c hc p hp
        refine ⟨fun hprv => hres.1 ?_, hres.2⟩
        exact regBFS_mono w h mask _ _ ⟨rv, x, y, x, y, 0⟩ hprv

/-- A pixel that is already visited, masked or out of bounds lies in no
collected component. -/
theorem sweepA_countP_zero (w h : ℕ) (mask : ℤ × ℤ → Bool) :
    ∀ (scan : List (ℤ × ℤ)) (rv : Finset (ℤ × ℤ)) (p : ℤ × ℤ),
      (p ∈ rv ∨ mask p = true ∨ ¬ inGrid w h p) →
      List.countP (fun c => decide (p ∈ c.1)) (sweepA w h mask scan rv) = 0 := by
  intro scan
  induction scan with
  | nil => intro rv p _; simp [sweepA]
  | cons a rest ih =>
    obtain ⟨x, y⟩ := a
    intro rv p hcase
    simp only [sweepA]
    split
    · exact ih rv p hcase
    · rw [List.countP_cons]
      have hhead : (decide (p ∈ (regBFS w h mask (regFuel w h) [(x, y)]
          ⟨rv, x, y, x, y, 0⟩).vis \ rv) : Bool) = false := by
        simp only [decide_eq_false_iff_not, Finset.mem_sdiff, not_and]
        intro hin hout
        rcases regBFS_marks w h mask _ _ _ p hin with hv | hv
        · exact absurd hv hout
        · rcases hcase with hc | hc | hc
          · exact absurd hc hout
          · rw [hv.2] at hc; exact absurd hc (by simp)
          · exact hc hv.1
      rw [hhead]
      simp only [Bool.false_eq_true, if_false, Nat.add_zero]
      refine ih _ p ?_
      rcases hcase with hc | hc | hc
      · exact Or.inl (regBFS_mono w h mask _ _ ⟨rv, x, y, x, y, 0⟩ hc)
      · exact Or.inr (Or.inl hc)
      · exact Or.inr (Or.inr hc)

/-- An in-bounds unmasked pixel that the scan still has to visit and that
is not yet collected lies in exactly one collected component. -/
theorem sweepA_countP_one (w h : ℕ) (mask : ℤ × ℤ → Bool) :
    ∀ (scan : List (ℤ × ℤ)) (rv : Finset (ℤ × ℤ)) (p : ℤ × ℤ),
      p ∈ scan → inGrid w h p → mask p = false → p ∉ rv →
      List.countP (fun c => decide (p ∈ c.1)) (sweepA w h mask scan rv) = 1 := by
  intro scan
  induction scan with
  | nil => intro rv p hp; simp at hp
  | cons a rest ih =>
    obtain ⟨x, y⟩ := a
    intro rv p hpscan hg hm hrv
    simp only [sweepA]
    split
    · rename_i hskip
      have hptail : p ∈ rest := by
        rcases List.mem_cons.mp hpscan with rfl | hp
        · exfalso
          rcases hskip with hs | hs
          · rw [hm] at hs; exact absurd hs (by simp)
          · exact hrv hs
        · exact hp
      exact ih rv p hptail hg hm hrv
    · rename_i hskip
      push_neg at hskip
      rw [List.countP_cons]
      by_cases hpv : p ∈ (regBFS w h mask (regFuel w h) [(x, y)]
          ⟨rv, x, y, x, y, 0⟩).vis
      · have hhead : (decide (p ∈ (regBFS w h mask (regFuel w h) [(x, y)]
            ⟨rv, x, y, x, y, 0⟩).vis \ rv) : Bool) = true := by
          simp [Finset.mem_sdiff, hpv, hrv]
        rw [hhead, sweepA_countP_zero w h mask rest _ p (Or.inl hpv)]
        simp
      · have hhead : (decide (p ∈ (regBFS w h mask (regFuel w h) [(x, y)]
            ⟨rv, x, y, x, y, 0⟩).vis \ rv) : Bool) = false := by
          simp only [decide_eq_false_iff_not, Finset.mem_sdiff, not_and]
          intro hin
          exact absurd hin hpv
        have hptail : p ∈ rest := by
          rcases List.mem_cons.mp hpscan with rfl | hp
          · exfalso
            exact hpv (regBFS_seed w h mask (4 * (w * h)) [] ⟨rv, x, y, x, y, 0⟩
              x y hg hm (by simpa using hrv))
          · exact hp
        rw [hhead]
        simp only [Bool.false_eq_true, if_false, Nat.zero_add]
        exact ih _ p hptail hg hm hpv

/-- Distinct collected components have disjoint pixel sets. -/
theorem sweepA_disjoint (w h : ℕ) (mask : ℤ × ℤ → Bool) :
    ∀ (scan : List (ℤ × ℤ)) (rv : Finset (ℤ × ℤ)),
      List.Pairwise (fun a b => Disjoint a.1 b.1) (sweepA w h mask scan rv) := by
  intro scan
  induction scan with
  | nil => intro rv; simp [sweepA]
  | cons a rest ih =>
    obtain ⟨x, y⟩ := a
    intro rv
    simp only [sweepA]
    split
    · exact ih rv
    · refine List.Pairwise.cons ?_ (ih _)
      intro c hc
      rw [Finset.disjoint_left]
      intro p hp hpc
      have := (sweepA_pixels w h mask rest _ c hc p hpc).1
      exact this (Finset.mem_sdiff.mp hp).1

/-- Every in-bounds pixel occurs in the row-major scan order. -/
theorem scanOrder_mem (w h : ℕ) (p : ℤ × ℤ) (hg : inGrid w h p) :
    p ∈ scanOrder w h := by
  obtain ⟨x, y⟩ := p
  obtain ⟨h1, h2, h3, h4⟩ := hg
  simp only at h1 h2 h3 h4
  have hpe : ((x.toNat : ℤ), (y.toNat : ℤ)) = (x, y) := by
    simp [Int.toNat_of_nonneg h1, Int.toNat_of_nonneg h3]
  rw [scanOrder]
  refine List.mem_flatMap.mpr ⟨y.toNat, List.mem_range.mpr (by omega), ?_⟩
  exact List.mem_map.mpr ⟨x.toNat, List.mem_range.mpr (by omega), hpe⟩

/-- Every pixel of the row-major scan order is in bounds. -/
theorem scanOrder_inGrid (w h : ℕ) :
    ∀ p ∈ scanOrder w h, inGrid w h p := by
  intro p hp
  rw [scanOrder] at hp
  obtain ⟨y, hy, hmem⟩ := List.mem_flatMap.mp hp
  obtain ⟨x, hx, rfl⟩ := List.mem_map.mp hmem
  rw [List.mem_range] at hy hx
  refine ⟨by simp, ?_, by simp, ?_⟩
  · show (x : ℤ) < (w : ℤ)
    exact_mod_cast hx
  · show (y : ℤ) < (h : ℤ)
    exact_mod_cast hy

/-- The filtering sweep of the source equals the instrumented sweep
followed by the bounding-box size filter. -/
theorem sweepR_eq_filter (w h : ℕ) (mask : ℤ × ℤ → Bool) (ms : ℤ) :
    ∀ (scan : List (ℤ × ℤ)) (rv : Finset (ℤ × ℤ)),
      sweepR w h mask ms scan rv =
        ((sweepA w h mask scan rv).filter
          (fun c => decide (ms ≤ c.2.x2 - c.2.x1) &&
            decide (ms ≤ c.2.y2 - c.2.y1))).map (fun c => c.2) := by
  intro scan
  induction scan with
  | nil => intro rv; simp [sweepR, sweepA]
  | cons a rest ih =>
    obtain ⟨x, y⟩ := a
    intro rv
    simp only [sweepR, sweepA]
    split
    · exact ih rv
    · set st := regBFS w h mask (regFuel w h) [(x, y)] ⟨rv, x, y, x, y, 0⟩ with hst
      by_cases hcond : ms ≤ st.maxx - st.minx + 1 ∧ ms ≤ st.maxy - st.miny + 1
      · rw [if_pos hcond, List.filter_cons_of_pos (by
          simp only [Bool.and_eq_true, decide_eq_true_iff]
          constructor <;> omega)]
        rw [List.map_cons, ih]
      · rw [if_neg hcond, List.filter_cons_of_neg (by
          simp only [Bool.and_eq_true, decide_eq_true_iff]
          intro hcc
          exact hcond (by constructor <;> omega))]
        exact ih _

/-- Every region emitted by the filtering sweep is well-formed. -/
theorem sweepR_WF (w h : ℕ) (mask : ℤ × ℤ → Bool) (ms : ℤ) :
    ∀ (scan : List (ℤ × ℤ)) (rv : Finset (ℤ × ℤ)),
      (∀ p ∈ scan, inGrid w h p) →
      ∀ r ∈ sweepR w h mask ms scan rv, WellFormed w h r := by
  intro scan
  induction scan with
  | nil => intro rv _ r hr; simp [sweepR] at hr
  | cons a rest ih =>
    obtain ⟨x, y⟩ := a
    intro rv hscan r hr
    have hrest : ∀ p ∈ rest, inGrid w h p :=
      fun p hp => hscan p (List.mem_cons_of_mem _ hp)
    have hhead : inGrid w h (x, y) := hscan (x, y) (List.mem_cons_self _ _)
    simp only [sweepR] at hr
    split at hr
    · exact ih rv hrest r hr
    · obtain ⟨h1, h2, h3, h4⟩ := hhead
      simp only at h1 h2 h3 h4
      have hbox := regBFS_box w h mask (regFuel w h) [(x, y)] ⟨rv, x, y, x, y, 0⟩
        h1 (le_refl x) h2 h3 (le_refl y) h4
      split at hr
      · rcases List.mem_cons.mp hr with rfl | hr
        · obtain ⟨b1, b2, b3, b4, b5, b6⟩ := hbox
          exact ⟨by simpa using b1, by simp only; omega, by simp only; omega,
            by simpa using b4, by simp only; omega, by simp only; omega⟩
        · exact ih _ hrest r hr
      · exact ih _ hrest r hr

/-- The absorption scan never lengthens the remaining list. -/
theorem absorb_len (gap : ℤ) :
    ∀ (r : Region) (l : List Region), (absorb gap r l).2.1.length ≤ l.length := by
  intro r l
  induction l generalizing r with
  | nil => simp [absorb]
  | cons s rest ih =>
    simp only [absorb]
    split
    · exact (ih (unionR r s)).trans (Nat.le_succ _)
    · simpa using ih r

/-- When the absorption scan reports a merge, the remaining list is
strictly shorter. -/
theorem absorb_flag_len (gap : ℤ) :
    ∀ (r : Region) (l : List Region), (absorb gap r l).2.2 = true →
      (absorb gap r l).2.1.length < l.length := by
  intro r l
  induction l generalizing r with
  | nil => simp [absorb]
  | cons s rest ih =>
    simp only [absorb]
    split
    · intro _
      exact Nat.lt_succ_of_le (absorb_len gap (unionR r s) rest)
    · intro hf
      simpa using Nat.succ_lt_succ (ih r hf)

/-- When the absorption scan reports no merge, it leaves everything
unchanged and no later region is close to the scanned one. -/
theorem absorb_false (gap : ℤ) :
    ∀ (r : Region) (l : List Region), (absorb gap r l).2.2 = false →
      (absorb gap r l).1 = r ∧ (absorb gap r l).2.1 = l ∧
        ∀ s ∈ l, close gap r s = false := by
  intro r l
  induction l generalizing r with
  | nil => simp [absorb]
  | cons s rest ih =>
    simp only [absorb]
    split
    · intro hf; simp at hf
    · rename_i hclose
      intro hf
      simp only at hf
      obtain ⟨e1, e2, e3⟩ := ih r hf
      refine ⟨e1, by simp [e2], ?_⟩
      intro t ht
      rcases List.mem_cons.mp ht with rfl | ht
      · simpa using hclose
      · exact e3 t ht

/-- The absorption scan conserves the total pixel count. -/
theorem absorb_sum (gap : ℤ) :
    ∀ (r : Region) (l : List Region),
      (absorb gap r l).1.count + ((absorb gap r l).2.1.map Region.count).sum =
        r.count + (l.map Region.count).sum := by
  intro r l
  induction l generalizing r with
  | nil => simp [absorb]
  | cons s rest ih =>
    simp only [absorb]
    split
    · have h1 := ih (unionR r s)
      have h2 : (unionR r s).count = r.count + s.count := rfl
      simp only [List.map_cons, List.sum_cons]
      omega
    · have := ih r
      simp only [List.map_cons, List.sum_cons]
      omega

/-- The absorption scan preserves well-formedness of all regions. -/
theorem absorb_WF (gap : ℤ) (w h : ℕ) :
    ∀ (r : Region) (l : List Region), WellFormed w h r →
      (∀ s ∈ l, WellFormed w h s) →
      WellFormed w h (absorb gap r l).1 ∧
        ∀ s ∈ (absorb gap r l).2.1, WellFormed w h s := by
  intro r l
  induction l generalizing r with
  | nil => intro hr _; simpa [absorb] using hr
  | cons s rest ih =>
    intro hr hl
    have hs : WellFormed w h s := hl s (List.mem_cons_self _ _)
    have hrest : ∀ t ∈ rest, WellFormed w h t :=
      fun t ht => hl t (List.mem_cons_of_mem _ ht)
    simp only [absorb]
    split
    · have hu : WellFormed w h (unionR r s) := by
        obtain ⟨a1, a2, a3, a4, a5, a6⟩ := hr
        obtain ⟨b1, b2, b3, b4, b5, b6⟩ := hs
        refine ⟨?_, ?_, ?_, ?_, ?_, ?_⟩ <;> simp only [unionR] <;> omega
      exact ih (unionR r s) hu hrest
    · obtain ⟨c1, c2⟩ := ih r hr hrest
      refine ⟨c1, ?_⟩
      intro t ht
      rcases List.mem_cons.mp ht with rfl | ht
      · exact hs
      · exact c2 t ht

/-- A merge pass never lengthens the list. -/
theorem mergePassAux_len (gap : ℤ) :
    ∀ (fuel : ℕ) (l : List Region), l.length ≤ fuel →
      (mergePassAux gap fuel l).1.length ≤ l.length := by
  intro fuel
  induction fuel with
  | zero =>
    intro l hl
    have : l = [] := by
      cases l with
      | nil => rfl
      | cons a r => simp at hl
    subst this
    simp [mergePassAux]
  | succ n ih =>
    intro l hl
    cases l with
    | nil => simp [mergePassAux]
    | cons r rest =>
      simp only [mergePassAux, List.length_cons]
      have h1 : (absorb gap r rest).2.1.length ≤ rest.length := absorb_len gap r rest
      have h2 := ih (absorb gap r rest).2.1 (by simp at hl; omega)
      omega

/-- A merge pass that reports a merge strictly shortens the list. -/
theorem mergePassAux_flag (gap : ℤ) :
    ∀ (fuel : ℕ) (l : List Region), l.length ≤ fuel →
      (mergePassAux gap fuel l).2 = true →
      (mergePassAux gap fuel l).1.length < l.length := by
  intro fuel
  induction fuel with
  | zero =>
    intro l hl hf
    have : l = [] := by
      cases l with
      | nil => rfl
      | cons a r => simp at hl
    subst this
    simp [mergePassAux] at hf
  | succ n ih =>
    intro l hl hf
    cases l with
    | nil => simp [mergePassAux] at hf
    | cons r rest =>
      simp only [mergePassAux] at hf ⊢
      have hlen : rest.length ≤ n := by simp at hl; omega
      rcases Bool.or_eq_true_iff.mp hf with hfa | hfb
      · have h1 := absorb_flag_len gap r rest hfa
        have h2 := mergePassAux_len gap n (absorb gap r rest).2.1
          (by have := absorb_len gap r rest; omega)
        simp only [List.length_cons]
        omega
      · have h1 := absorb_len gap r rest
        have h2 := ih (absorb gap r rest).2.1 (by omega) hfb
        simp only [List.length_cons]
        omega

/-- A merge pass that reports no merge leaves the list unchanged, and the
list is then pairwise non-close. -/
theorem mergePassAux_false (gap : ℤ) :
    ∀ (fuel : ℕ) (l : List Region), l.length ≤ fuel →
      (mergePassAux gap fuel l).2 = false →
      (mergePassAux gap fuel l).1 = l ∧
        List.Pairwise (fun a b => close gap a b = false) l := by
  intro fuel
  induction fuel with
  | zero =>
    intro l hl _
    have : l = [] := by
      cases l with
      | nil => rfl
      | cons a r => simp at hl
    subst this
    simp [mergePassAux]
  | succ n ih =>
    intro l hl hf
    cases l with
    | nil => simp [mergePassAux]
    | cons r rest =>
      simp only [mergePassAux] at hf ⊢
      have hor := Bool.or_eq_false_iff.mp hf
      obtain ⟨e1, e2, e3⟩ := absorb_false gap r rest hor.1
      have hlen : rest.length ≤ n := by simp at hl; omega
      have hrec := ih (absorb gap r rest).2.1 (by rw [e2]; exact hlen) hor.2
      rw [e2] at hrec
      refine ⟨by rw [e1, e2, hrec.1], List.Pairwise.cons e3 hrec.2⟩

/-- A merge pass conserves the total pixel count. -/
theorem mergePassAux_sum (gap : ℤ) :
    ∀ (fuel : ℕ) (l : List Region), l.length ≤ fuel →
      ((mergePassAux gap fuel l).1.map Region.count).sum =
        (l.map Region.count).sum := by
  intro fuel
  induction fuel with
  | zero =>
    intro l hl
    have : l = [] := by
      cases l with
      | nil => rfl
      | cons a r => simp at hl
    subst this
    simp [mergePassAux]
  | succ n ih =>
    intro l hl
    cases l with
    | nil => simp [mergePassAux]
    | cons r rest =>
      simp only [mergePassAux, List.map_cons, List.sum_cons]
      have hlen : rest.length ≤ n := by simp at hl; omega
      have h1 := absorb_sum gap r rest
      have h2 := ih (absorb gap r rest).2.1
        (by have := absorb_len gap r rest; omega)
      omega

/-- A merge pass preserves well-formedness of all regions. -/
theorem mergePassAux_WF (gap : ℤ) (w h : ℕ) :
    ∀ (fuel : ℕ) (l : List Region), (∀ r ∈ l, WellFormed w h r) →
      ∀ r ∈ (mergePassAux gap fuel l).1, WellFormed w h r := by
  intro fuel
  induction fuel with
  | zero =>
    intro l hl r hr
    cases l with
    | nil => simp [mergePassAux] at hr
    | cons a rest => simpa [mergePassAux] using hl r (by simpa [mergePassAux] using hr)
  | succ n ih =>
    intro l hl r hr
    cases l with
    | nil => simp [mergePassAux] at hr
    | cons a rest =>
      simp only [mergePassAux] at hr
      have ha : WellFormed w h a := hl a (List.mem_cons_self _ _)
      have hrest : ∀ t ∈ rest, WellFormed w h t :=
        fun t ht => hl t (List.mem_cons_of_mem _ ht)
      obtain ⟨c1, c2⟩ := absorb_WF gap w h a rest ha hrest
      rcases List.mem_cons.mp hr with rfl | hr
      · exact c1
      · exact ih (absorb gap a rest).2.1 c2 r hr

/-- With fuel exceeding the list length, the merge loop reaches a fixpoint:
one more pass on the result reports no merge and changes nothing. -/
theorem mergeRun_fix (gap : ℤ) :
    ∀ (fuel : ℕ) (l : List Region), l.length < fuel →
      mergePass gap (mergeRun gap fuel l) = (mergeRun gap fuel l, false) := by
  intro fuel
  induction fuel with
  | zero => intro l hl; omega
  | succ n ih =>
    intro l hl
    simp only [mergeRun]
    by_cases hflag : (mergePass gap l).2 = true
    · rw [if_pos hflag]
      have hlt := mergePassAux_flag gap l.length l (le_refl _) hflag
      exact ih (mergePass gap l).1 (by
        have : (mergePass gap l).1.length < l.length := hlt
        omega)
    · rw [if_neg hflag]
      have hf : (mergePass gap l).2 = false := by
        cases hb : (mergePass gap l).2
        · rfl
        · exact absurd hb hflag
      obtain ⟨e1, _⟩ := mergePassAux_false gap l.length l (le_refl _) hf
      rw [show (mergePass gap l).1 = l from e1]
      exact Prod.ext e1 hf

/-- The merge loop conserves the total pixel count. -/
theorem mergeRun_sum (gap : ℤ) :
    ∀ (fuel : ℕ) (l : List Region),
      ((mergeRun gap fuel l).map Region.count).sum = (l.map Region.count).sum := by
  intro fuel
  induction fuel with
  | zero => intro l; simp [mergeRun]
  | succ n ih =>
    intro l
    simp only [mergeRun]
    split
    · rw [ih]
      exact mergePassAux_sum gap l.length l (le_refl _)
    · exact mergePassAux_sum gap l.length l (le_refl _)

/-- The merge loop preserves well-formedness of all regions. -/
theorem mergeRun_WF (gap : ℤ) (w h : ℕ) :
    ∀ (fuel : ℕ) (l : List Region), (∀ r ∈ l, WellFormed w h r) →
      ∀ r ∈ mergeRun gap fuel l, WellFormed w h r := by
  intro fuel
  induction fuel with
  | zero => intro l hl r hr; exact hl r (by simpa [mergeRun] using hr)
  | succ n ih =>
    intro l hl r hr
    simp only [mergeRun] at hr
    split at hr
    · exact ih (mergePass gap l).1 (mergePassAux_WF gap w h l.length l hl) r hr
    · exact mergePassAux_WF gap w h l.length l hl r hr

/-- One more merge pass on the merger output reports no merge and returns
the output unchanged. -/
theorem merge_close_fix (gap : ℤ) (l : List Region) :
    mergePass gap (merge_close_regions l gap) = (merge_close_regions l gap, false) := by
  by_cases hl : l = []
  · subst hl
    simp [merge_close_regions, mergePass, mergePassAux]
  · simp only [merge_close_regions, if_neg hl]
    exact mergeRun_fix gap (l.length + 1) l (by omega)

/-- The merger output is unchanged by merging again. -/
theorem merge_close_idem (gap : ℤ) (l : List Region) :
    merge_close_regions (merge_close_regions l gap) gap = merge_close_regions l gap := by
  set F := merge_close_regions l gap with hF
  by_cases hFe : F = []
  · rw [hFe]
    simp [merge_close_regions]
  · simp only [merge_close_regions, if_neg hFe]
    cases hFl : F.length with
    | zero => exact absurd (List.length_eq_zero.mp hFl) hFe
    | succ m =>
      simp only [mergeRun]
      rw [merge_close_fix gap l]
      simp

/-- The merger output is pairwise non-close. -/
theorem merge_close_pairwise (gap : ℤ) (l : List Region) :
    List.Pairwise (fun a b => close gap a b = false) (merge_close_regions l gap) := by
  have hfix := merge_close_fix gap l
  have hf : (mergePass gap (merge_close_regions l gap)).2 = false := by
    rw [hfix]
  exact (mergePassAux_false gap (merge_close_regions l gap).length _ (le_refl _) hf).2

/-- The merger conserves the total pixel count. -/
theorem merge_close_sum (gap : ℤ) (l : List Region) :
    ((merge_close_regions l gap).map Region.count).sum = (l.map Region.count).sum := by
  by_cases hl : l = []
  · subst hl; simp [merge_close_regions]
  · simp only [merge_close_regions, if_neg hl]
    exact mergeRun_sum gap (l.length + 1) l

/-- The merger preserves well-formedness of all regions. -/
theorem merge_close_WF (gap : ℤ) (w h : ℕ) (l : List Region)
    (hl : ∀ r ∈ l, WellFormed w h r) :
    ∀ r ∈ merge_close_regions l gap, WellFormed w h r := by
  by_cases he : l = []
  · subst he; intro r hr; simp [merge_close_regions] at hr
  · simp only [merge_close_regions, if_neg he]
    exact mergeRun_WF gap w h (l.length + 1) l hl

/-- Zeroing the alpha channel never changes the color channels, so the
classification of a patched pixel agrees with the original. -/
theorem isBgOf_patchAlpha (img : PixelBuffer) (v : Finset (ℤ × ℤ)) (p : ℤ × ℤ) :
    isBgOf (patchAlpha img v) p = isBgOf img p := by
  simp only [isBgOf, patchAlpha]
  by_cases hv : p ∈ v
  · rw [if_pos hv]; rfl
  · rw [if_neg hv]

/-- Patching an empty set changes nothing. -/
theorem patchAlpha_empty (img : PixelBuffer) : patchAlpha img ∅ = img := by
  funext p
  simp [patchAlpha]

/-- Updating a patched buffer at a fresh marked pixel equals patching the
enlarged set. -/
theorem patchAlpha_update (img : PixelBuffer) (v : Finset (ℤ × ℤ)) (p : ℤ × ℤ)
    (hp : p ∉ v) :
    updateBuf (patchAlpha img v) p (setTransparent (patchAlpha img v p)) =
      patchAlpha img (insert p v) := by
  funext q
  simp only [updateBuf, patchAlpha]
  by_cases hq : q = p
  · subst hq
    rw [if_pos rfl, if_neg hp, if_pos (Finset.mem_insert_self _ _)]
  · rw [if_neg hq]
    by_cases hqv : q ∈ v
    · rw [if_pos hqv, if_pos (Finset.mem_insert_of_mem hqv)]
    · rw [if_neg hqv, if_neg (by simp [hq, hqv])]

/-- The transparency worklist on a patched buffer runs in lockstep with the
pure background fill: it visits the same pixels and the final buffer is the
original patched on the final visited set. -/
theorem mbRun_spec (w h : ℕ) (img : PixelBuffer) :
    ∀ (fuel : ℕ) (queue : List (ℤ × ℤ)) (v : Finset (ℤ × ℤ)),
      mbRun w h fuel queue v (patchAlpha img v) =
        ((bgRun w h (isBgOf img) fuel queue v).2,
          patchAlpha img (bgRun w h (isBgOf img) fuel queue v).2) := by
  intro fuel
  induction fuel with
  | zero => intro queue v; simp [mbRun, bgRun]
  | succ n ih =>
    intro queue v
    cases queue with
    | nil => simp [mbRun, bgRun]
    | cons q0 rest =>
      obtain ⟨x, y⟩ := q0
      simp only [mbRun, bgRun]
      by_cases hb : x < 0 ∨ (w : ℤ) ≤ x ∨ y < 0 ∨ (h : ℤ) ≤ y
      · rw [if_pos hb, if_pos hb, ih]
      · rw [if_neg hb, if_neg hb]
        by_cases hv : (x, y) ∈ v
        · rw [if_pos hv, if_pos hv, ih]
        · rw [if_neg hv, if_neg hv]
          rw [isBgOf_patchAlpha img v (x, y)]
          by_cases hbg : isBgOf img (x, y) = false
          · rw [if_pos hbg, if_pos hbg, ih]
          · rw [if_neg hbg, if_neg hbg,
              patchAlpha_update img v (x, y) hv, ih]

/-- The transparency pass equals patching the original buffer on the pure
flood fill mask. -/
theorem make_background_transparent_eq (w h : ℕ) (img : PixelBuffer) :
    make_background_transparent w h img =
      patchAlpha img (flood_fill_background w h img) := by
  rw [make_background_transparent, flood_fill_background]
  conv_lhs => rw [show img = patchAlpha img ∅ from (patchAlpha_empty img).symm]
  rw [mbRun_spec w h img (bgFuel w h) (borderSeeds w h) ∅]

/-- Every extracted region is well-formed. -/
theorem find_sprite_regions_WF (w h : ℕ) (mask : ℤ × ℤ → Bool) (ms : ℤ) :
    ∀ r ∈ find_sprite_regions w h mask ms, WellFormed w h r :=
  sweepR_WF w h mask ms (scanOrder w h) ∅ (scanOrder_inGrid w h)

/-- Every region surviving the whole pipeline is well-formed. -/
theorem pipelineRegions_WF (w h : ℕ) (img : PixelBuffer) :
    ∀ r ∈ pipelineRegions w h img, WellFormed w h r := by
  intro r hr
  rw [pipelineRegions, sortRegions] at hr
  have hr2 := (List.perm_insertionSort sortLE _).mem_iff.mp hr
  have hr3 := (List.mem_filter.mp hr2).1
  exact merge_close_WF 3 w h _
    (find_sprite_regions_WF w h (bgMaskFn w h img) 30) r hr3

/-- The padded and clamped crop box of a well-formed region has strictly
positive width and height. -/
theorem WF_cropBox (w h : ℕ) (r : Region) (hwf : WellFormed w h r) :
    0 < (cropBox w h 2 r).x2 - (cropBox w h 2 r).x1 ∧
      0 < (cropBox w h 2 r).y2 - (cropBox w h 2 r).y1 := by
  obtain ⟨a1, a2, a3, a4, a5, a6⟩ := hwf
  simp only [cropBox]
  constructor <;> omega

/-- C1 (amended): the cutting stage has no degenerate-geometry guard; it
crops, fills and hands one buffer to the writer for every region of its
input list, whatever the shape of its crop box. -/
theorem claim_C1_amended :
    ∀ (w h : ℕ) (img : PixelBuffer) (regions : List Region),
      (spriteCut w h img regions).length = regions.length := by
  intro w h img regions
  simp [spriteCut]

/-- C1 counterexample: a region whose padded and clamped crop box has zero
width is not skipped: the cutting stage still emits one buffer for it. -/
theorem claim_C1_cex :
    ((cropBox 10 5 2 ⟨6, 0, 2, 5, 600⟩).x2 -
        (cropBox 10 5 2 ⟨6, 0, 2, 5, 600⟩).x1 = 0) ∧
      (spriteCut 10 5 (fun _ => (255, 255, 255, 255)) [⟨6, 0, 2, 5, 600⟩]).length = 1 :=
  ⟨by decide, by decide⟩

/-- C2: after the background fill and the component extraction, every
in-bounds pixel outside the background mask lies in exactly one collected
component, and every masked or out-of-bounds pixel lies in none. -/
theorem claim_C2 : ∀ (w h : ℕ) (img : PixelBuffer) (p : ℤ × ℤ),
    List.countP (fun c => decide (p ∈ c.1))
        (allComponents w h (bgMaskFn w h img)) =
      if inGrid w h p ∧ p ∉ flood_fill_background w h img then 1 else 0 := by
  intro w h img p
  simp only [allComponents]
  by_cases hc : inGrid w h p ∧ p ∉ flood_fill_background w h img
  · rw [if_pos hc]
    refine sweepA_countP_one w h _ (scanOrder w h) ∅ p
      (scanOrder_mem w h p hc.1) hc.1 ?_ (by simp)
    simp [bgMaskFn, hc.2]
  · rw [if_neg hc]
    push_neg at hc
    refine sweepA_countP_zero w h _ (scanOrder w h) ∅ p ?_
    by_cases hg : inGrid w h p
    · exact Or.inr (Or.inl (by simp [bgMaskFn, hc hg]))
    · exact Or.inr (Or.inr hg)

/-- C3: the merger reaches a fixpoint: merging its own output changes
nothing, and no two output regions pass the expanded-bounds intersection
test. -/
theorem claim_C3 : ∀ (gap : ℤ) (rs : List Region),
    merge_close_regions (merge_close_regions rs gap) gap =
        merge_close_regions rs gap ∧
      List.Pairwise (fun a b => close gap a b = false)
        (merge_close_regions rs gap) :=
  fun gap rs => ⟨merge_close_idem gap rs, merge_close_pairwise gap rs⟩

/-- C4: the classifier returns true exactly when the average channel
intensity exceeds 225 and the channel spread is strictly below 12; it is a
total function of the three channel values. -/
theorem claim_C4 : ∀ (r g b : ℕ),
    is_background_pixel r g b = true ↔
      (225 < ((r : ℚ) + (g : ℚ) + (b : ℚ)) / 3 ∧
        ((max r (max g b) : ℕ) : ℤ) - ((min r (min g b) : ℕ) : ℤ) < 12) := by
  intro r g b
  rw [is_background_pixel]
  simp [Bool.and_eq_true, decide_eq_true_iff]

/-- C5: the background fill marks a pixel exactly when it is
background-like and reachable from a border pixel through a 4-connected
path of background-like pixels; a border pixel failing the classification
is never marked. -/
theorem claim_C5 : ∀ (w h : ℕ) (img : PixelBuffer) (p : ℤ × ℤ),
    (p ∈ flood_fill_background w h img ↔ Reach w h (isBgOf img) p) ∧
      (onBorder w h p → isBgOf img p = false →
        p ∉ flood_fill_background w h img) := by
  intro w h img p
  have hiff : p ∈ flood_fill_background w h img ↔ Reach w h (isBgOf img) p := by
    rw [flood_fill_background]
    exact bgMask_iff w h (isBgOf img) p
  refine ⟨hiff, ?_⟩
  intro _ hbgf hmem
  have hbg := (Reach_isBg w h (isBgOf img) p (hiff.mp hmem)).2
  rw [hbgf] at hbg
  exact absurd hbg (by simp)

/-- C5 witness: on a 2 by 2 all-black sheet the border pixel at the origin
fails the background test and is not marked. -/
theorem claim_C5_witness :
    (0, 0) ∉ flood_fill_background 2 2 (fun _ => (0, 0, 0, 0)) := by
  refine (claim_C5 2 2 (fun _ => (0, 0, 0, 0)) (0, 0)).2 (by decide) ?_
  show is_background_pixel 0 0 0 = false
  rw [is_background_pixel_iff]
  decide

/-- C6: the merger conserves the total pixel count, and a concrete merge of
two close regions adds their counts instead of recomputing from the merged
box area. -/
theorem claim_C6 :
    (∀ (gap : ℤ) (rs : List Region),
        ((merge_close_regions rs gap).map Region.count).sum =
          (rs.map Region.count).sum) ∧
      merge_close_regions [⟨0, 0, 10, 10, 7⟩, ⟨12, 0, 20, 10, 8⟩] 5 =
        [⟨0, 0, 20, 10, 15⟩] :=
  ⟨fun gap rs => merge_close_sum gap rs, by decide⟩

/-- C7: the extractor keeps a collected component exactly when both
bounding box sides reach the minimum size, distinct components never share
a pixel, and a concrete 5 by 5 component is collected yet discarded by the
default 30 pixel minimum. -/
theorem claim_C7 :
    (∀ (w h : ℕ) (mask : ℤ × ℤ → Bool) (ms : ℤ),
        find_sprite_regions w h mask ms =
          ((allComponents w h mask).filter
            (fun c => decide (ms ≤ c.2.x2 - c.2.x1) &&
              decide (ms ≤ c.2.y2 - c.2.y1))).map (fun c => c.2)) ∧
      (∀ (w h : ℕ) (mask : ℤ × ℤ → Bool),
        List.Pairwise (fun a b => Disjoint a.1 b.1) (allComponents w h mask)) ∧
      find_sprite_regions 5 5 (fun _ => false) 30 = [] ∧
      (allComponents 5 5 (fun _ => false)).map (fun c => c.2) =
        [⟨0, 0, 5, 5, 25⟩] := by
  refine ⟨?_, ?_, by decide, by decide⟩
  · intro w h mask ms
    simp only [find_sprite_regions, allComponents]
    exact sweepR_eq_filter w h mask ms (scanOrder w h) ∅
  · intro w h mask
    simp only [allComponents]
    exact sweepA_disjoint w h mask (scanOrder w h) ∅

/-- C8: the artifact filter keeps exactly the regions with more than 500
pixels; a count of exactly 500 is dropped and 501 is kept. -/
theorem claim_C8 :
    (∀ (rs : List Region) (r : Region),
        r ∈ filterArtifacts rs ↔ r ∈ rs ∧ 500 < r.count) ∧
      filterArtifacts [⟨0, 0, 40, 40, 500⟩] = [] ∧
      filterArtifacts [⟨0, 0, 40, 40, 501⟩] = [⟨0, 0, 40, 40, 501⟩] := by
  refine ⟨?_, by decide, by decide⟩
  intro rs r
  simp [filterArtifacts, List.mem_filter]

/-- C9: the transparency pass zeroes the alpha channel of exactly the
pixels marked by the local border-seeded fill, keeps their color channels,
and leaves every other pixel entirely unchanged. -/
theorem claim_C9 : ∀ (w h : ℕ) (img : PixelBuffer) (p : ℤ × ℤ),
    make_background_transparent w h img p =
      if p ∈ flood_fill_background w h img then
        ((img p).1, (img p).2.1, (img p).2.2.1, 0)
      else img p := by
  intro w h img p
  rw [make_background_transparent_eq]
  rfl

/-- C10: every region surviving the extract, merge and filter pipeline has
a padded and clamped crop box of strictly positive width and height. -/
theorem claim_C10 : ∀ (w h : ℕ) (img : PixelBuffer),
    (pipelineRegions w h img).all
      (fun r => decide (0 < (cropBox w h 2 r).x2 - (cropBox w h 2 r).x1) &&
        decide (0 < (cropBox w h 2 r).y2 - (cropBox w h 2 r).y1)) = true := by
  intro w h img
  rw [List.all_eq_true]
  intro r hr
  have hwf := pipelineRegions_WF w h img r hr
  obtain ⟨hx, hy⟩ := WF_cropBox w h r hwf
  simp [hx, hy]
